import Mathlib

/-!
# Verification of the animation-library auto-update scripts

A shallow embedding of `Auto-update.py` and `collect.py`.

Text content is modelled as `List Char` (Python `str`).  The regex
`const animationFiles = \[\s*([^\]]*)\s*\];` used by `update_library_file`
is embedded directly: because `[^\]]*` is greedy and cannot cross a `]`,
a match at a position is: the literal header `const animationFiles = [`,
followed by a run of non-`]` characters (the body), followed by `];`;
`re.search` returns the leftmost such match, group 0 is
`header ++ body ++ "];"` and group 1 is the body with leading whitespace
removed (the trailing `\s*` always matches the empty string because the
greedy group has already consumed everything up to the first `]`).

File-system and subprocess effects are passed in as explicit oracles
(directory listings, a `run` function for git commands, a `readFile`
function for the collector), so every definition is executable.
-/

namespace AutoUpdate

/-- Python `str.strip()` whitespace class (ASCII part of `\s`). -/
def isSpaceC (c : Char) : Bool :=
  c = ' ' || c = '\t' || c = '\n' || c = '\r' || c = '\x0b' || c = '\x0c'

/-- The character class stripped by `str.strip('"\'')`. -/
def isQuoteC (c : Char) : Bool := c = '"' || c = '\''

/-- Python `s.strip(chars)`: remove leading and trailing characters of the
class `p`. -/
def pyStrip (p : Char → Bool) (l : List Char) : List Char :=
  ((l.dropWhile p).reverse.dropWhile p).reverse

/-- Python `s.strip()`: remove leading and trailing whitespace. -/
def stripWs (l : List Char) : List Char := pyStrip isSpaceC l

/-- Python `s.strip('"\'')`: remove leading and trailing quote characters. -/
def stripQuotes (l : List Char) : List Char := pyStrip isQuoteC l

/-- The fixed literal part of the regex: `const animationFiles = [`. -/
def headerC : List Char := "const animationFiles = [".data

/-- `[^\]]` as a Boolean predicate: any character other than `]`. -/
def notRB (c : Char) : Bool := c ≠ ']'

/-- Attempt a regex match anchored at the start of `l`:
header, then a run of non-`]` characters, then `];`.
Returns `(body, rest-after-the-match)` on success. -/
def tryMatch (l : List Char) : Option (List Char × List Char) :=
  if headerC <+: l then
    match (l.drop headerC.length).dropWhile notRB with
    | ']' :: ';' :: post =>
      some ((l.drop headerC.length).takeWhile notRB, post)
    | _ => none
  else none

/-- `re.search`: try the match at every position left to right; on the
first success return `(text before the match, body, text after the match)`. -/
def searchArr : List Char → Option (List Char × List Char × List Char)
  | [] => none
  | c :: cs =>
    match tryMatch (c :: cs) with
    | some (body, post) => some ([], body, post)
    | none =>
      match searchArr cs with
      | some (pre, body, post) => some (c :: pre, body, post)
      | none => none

/-- Fuel-driven scan for Python `content.replace(pat, rep)`: at each
position, if the (nonempty) pattern starts here, emit `rep` and jump past
the occurrence, else keep the character and move on.  The fuel only makes
the recursion structural; any fuel `≥ length` gives the same answer. -/
def replaceAllGo (pat rep : List Char) : Nat → List Char → List Char
  | _, [] => []
  | 0, s => s
  | fuel + 1, c :: cs =>
    if pat ≠ [] ∧ pat <+: (c :: cs) then
      rep ++ replaceAllGo pat rep fuel (cs.drop (pat.length - 1))
    else
      c :: replaceAllGo pat rep fuel cs

/-- Python `content.replace(pat, rep)` for a nonempty `pat`: replace every
non-overlapping occurrence, scanning left to right.  (The script only ever
calls this with `pat` = the matched group 0, which starts with the header
and is never empty; an empty `pat` is treated as "no occurrence".) -/
def replaceAll (pat rep s : List Char) : List Char :=
  replaceAllGo pat rep s.length s

/-- The fuel is irrelevant as long as it covers the text length. -/
theorem replaceAllGo_fuel (pat rep : List Char) :
    ∀ f1 f2 s, s.length ≤ f1 → s.length ≤ f2 →
      replaceAllGo pat rep f1 s = replaceAllGo pat rep f2 s := by
  intro f1
  induction f1 with
  | zero =>
    intro f2 s h1 _
    have : s = [] := List.eq_nil_of_length_eq_zero (Nat.le_zero.mp h1)
    subst this
    cases f2 <;> rfl
  | succ f1 ih =>
    intro f2 s h1 h2
    cases s with
    | nil => cases f2 <;> rfl
    | cons c cs =>
      cases f2 with
      | zero => simp at h2
      | succ f2 =>
        show (if pat ≠ [] ∧ pat <+: (c :: cs) then
            rep ++ replaceAllGo pat rep f1 (cs.drop (pat.length - 1))
          else c :: replaceAllGo pat rep f1 cs) =
          (if pat ≠ [] ∧ pat <+: (c :: cs) then
            rep ++ replaceAllGo pat rep f2 (cs.drop (pat.length - 1))
          else c :: replaceAllGo pat rep f2 cs)
        by_cases h : pat ≠ [] ∧ pat <+: (c :: cs)
        · rw [if_pos h, if_pos h]
          have hlen : (cs.drop (pat.length - 1)).length ≤ f1 := by
            simp only [List.length_drop]
            have := Nat.le_of_succ_le_succ (by simpa using h1)
            omega
          have hlen2 : (cs.drop (pat.length - 1)).length ≤ f2 := by
            simp only [List.length_drop]
            have := Nat.le_of_succ_le_succ (by simpa using h2)
            omega
          rw [ih f2 _ hlen hlen2]
        · rw [if_neg h, if_neg h]
          have l1 : cs.length ≤ f1 := Nat.le_of_succ_le_succ (by simpa using h1)
          have l2 : cs.length ≤ f2 := Nat.le_of_succ_le_succ (by simpa using h2)
          rw [ih f2 cs l1 l2]

/-- Python `s.split(sep)` for a single-character separator: split at every
occurrence, keeping empty pieces (`"".split(c) == [""]`). -/
def splitOnChar (c : Char) : List Char → List (List Char)
  | [] => [[]]
  | x :: xs =>
    if x = c then [] :: splitOnChar c xs
    else
      match splitOnChar c xs with
      | [] => [[x]]
      | y :: ys => (x :: y) :: ys

/-- Parse the captured group 1 the way lines 46−48 of `Auto-update.py` do:
split on commas, keep the pieces whose whitespace-strip is nonempty, and
for each kept piece strip whitespace and then quote characters. -/
def parseEntries (g1 : List Char) : List (List Char) :=
  ((splitOnChar ',' g1).filter (fun f => !(stripWs f).isEmpty)).map
    (fun f => stripQuotes (stripWs f))

/-- Newline plus the fixed 12-space indentation used inside the literal. -/
def nl12 : List Char := "\n            ".data

/-- Newline plus the fixed 8-space indentation before the closing `];`. -/
def nl8 : List Char := "\n        ".data

/-- The separator `',\n' + 12 spaces` joining formatted entries (line 64). -/
def sepC : List Char := ",\n            ".data

/-- `f'"{f}"'`: enclose one entry in double quotes. -/
def quoteE (f : List Char) : List Char := '"' :: (f ++ ['"'])

/-- `','.join`-style formatting of the entry list (line 64). -/
def formattedFiles (L : List (List Char)) : List Char :=
  List.intercalate sepC (L.map quoteE)

/-- Python string `<=`: code-point lexicographic comparison. -/
def pyLe : List Char → List Char → Bool
  | [], _ => true
  | _ :: _, [] => false
  | a :: as, b :: bs =>
    if a < b then true else if a = b then pyLe as bs else false

/-- `sorted(list(set(disk_files)))`: the distinct entries in ascending
lexicographic order (Python string comparison = code-point lexicographic
order, which agrees with the `LinearOrder` on `List Char`). -/
def canonList (disk : List (List Char)) : List (List Char) :=
  disk.dedup.insertionSort (fun a b => pyLe a b = true)

/-- The replacement literal built on line 67 of `Auto-update.py`. -/
def newArrayStr (L : List (List Char)) : List Char :=
  headerC ++ nl12 ++ formattedFiles L ++ nl8 ++ [']', ';']

/-- Outcome of one run of `update_library_file` on the document text.
`patternNotFound` and `upToDate` both leave the file untouched (the
function returns `False` before any write); `updated c` means the new
content `c` is written back. -/
inductive PatchResult where
  | patternNotFound
  | upToDate
  | updated (newContent : List Char)
deriving DecidableEq

/-- `update_library_file` (lines 22−79) at the level of the document text:
locate the array, parse its entries, compare as sets, and if different
replace (all occurrences of) the matched group 0 with the canonical
literal.  File I/O errors are outside this model. -/
def update_library_file (disk_files : List (List Char)) (content : List Char) :
    PatchResult :=
  match searchArr content with
  | none => .patternNotFound
  | some (_, body, _) =>
    let html_files := parseEntries (body.dropWhile isSpaceC)
    if disk_files.toFinset = html_files.toFinset then .upToDate
    else
      .updated (replaceAll (headerC ++ body ++ [']', ';'])
        (newArrayStr (canonList disk_files)) content)

/-- The document text on disk after a run of the patcher: the new content
when a rewrite happened, the old content otherwise. -/
def patchedContent (disk_files : List (List Char)) (content : List Char) :
    List Char :=
  match update_library_file disk_files content with
  | .updated c => c
  | _ => content

/-- Whether the patcher reports that it changed the file
(the `True`/`False` return value of `update_library_file`, with the
write assumed to succeed). -/
def patchChanged (disk_files : List (List Char)) (content : List Char) : Bool :=
  match update_library_file disk_files content with
  | .updated _ => true
  | _ => false

/-! ## Directory scanner (`get_animation_files_from_disk`, lines 12−20) -/

/-- The configured animation folder name. -/
def ANIM_FOLDER : List Char := "Anim".data

/-- `path.replace("\\", "/")`: normalize separators (a single-character
substring replacement, hence a character map). -/
def normSlash (p : List Char) : List Char :=
  p.map (fun c => if c = '\\' then '/' else c)

/-- `get_animation_files_from_disk`.  The file system is passed in as the
oracle pair `isdir` (does `Anim` exist as a directory) and `listing`
(`os.listdir` output); `sep` is the platform path separator that
`os.path.join` inserts (`'/'` on Unix, `'\\'` on Windows).  Returns the
list of matching paths; the error report happens exactly when
`isdir = false`, in which case the result is empty. -/
def get_animation_files_from_disk (isdir : Bool) (listing : List (List Char))
    (sep : Char) : List (List Char) :=
  if isdir then
    (listing.filter (fun f => decide (".html".data <:+ f))).map
      (fun f => normSlash (ANIM_FOLDER ++ sep :: f))
  else []

/-! ## Repository synchronizer (`manage_git_repository`, lines 81−146) -/

/-- The git commands the synchronizer can run, in script order:
`status --porcelain`, `stash`, `pull --rebase`, `stash pop`,
(second) `status --porcelain`, `add .`, `commit -m msg`, `push`. -/
inductive GitCmd where
  | status
  | stash
  | pull
  | stashPop
  | add
  | commit (msg : List Char)
  | push
deriving DecidableEq

/-- Which invocations pass `capture_output=True` (so that
`CalledProcessError.stderr` is available; for the others the child's
stderr is inherited by the console and `e.stderr` is `None`). -/
def capturedOutput : GitCmd → Bool
  | .status => true
  | .stash => true
  | .pull => false
  | .stashPop => true
  | .add => false
  | .commit _ => false
  | .push => false

/-- Result of one subprocess invocation. -/
structure ExecResult where
  exitCode : Nat
  stdout : List Char
  stderr : List Char

/-- How `manage_git_repository` returns: normally (nothing to commit, or
the full commit/push sequence done), or by one of its two `except`
handlers.  In every case the Python function returns `None` normally —
no exception escapes. -/
inductive SyncOutcome where
  | noChanges
  | completed
  | toolNotFound (cmd : GitCmd)
  | cmdFailed (cmd : GitCmd) (stderr : Option (List Char))
deriving DecidableEq

/-- `os.path.basename` (POSIX): the part after the last `/`. -/
def basenameC (p : List Char) : List Char :=
  (p.reverse.takeWhile (fun c => c ≠ '/')).reverse

/-- The fixed default commit message (line 116). -/
def defaultMsg : List Char := "Update animation library".data

/-- Commit-message derivation from the status lines (lines 115−126):
untracked (`??`) lines take priority; `line[3:]` extracts the path;
a "modified" line is one whose whitespace-stripped form starts with `M`. -/
def commitMessage (lines : List (List Char)) : List Char :=
  let added := (lines.filter (fun l => decide ("??".data <+: l))).map
    (fun l => l.drop 3)
  match added with
  | a :: _ => "Add ".data ++ basenameC a
  | [] =>
    let modified := (lines.filter (fun l => decide ("M".data <+: stripWs l))).map
      (fun l => l.drop 3)
    match modified with
    | m :: _ => "Update ".data ++ basenameC m
    | [] => defaultMsg

/-- Run one git command with `check=True`: a missing tool or a non-zero
exit becomes an `Except.error` carrying the trace (commands run so far,
this one included) and the outcome of the corresponding handler. -/
def step (run : GitCmd → Option ExecResult) (trace : List GitCmd)
    (c : GitCmd) : Except (List GitCmd × SyncOutcome) (List GitCmd × ExecResult) :=
  match run c with
  | none => .error (trace ++ [c], .toolNotFound c)
  | some r =>
    if r.exitCode = 0 then .ok (trace ++ [c], r)
    else .error (trace ++ [c],
      .cmdFailed c (if capturedOutput c then some r.stderr else none))

/-- Phase 1 of `manage_git_repository` (lines 88−103): check status,
stash when dirty, pull with rebase, pop when stashed.  Returns the trace
of executed commands, or aborts at the first failure. -/
def syncPhase (run : GitCmd → Option ExecResult) :
    Except (List GitCmd × SyncOutcome) (List GitCmd) :=
  match step run [] .status with
  | .error e => .error e
  | .ok (t1, r1) =>
    match (if !(stripWs r1.stdout).isEmpty
           then (step run t1 .stash).map (fun x => x.1)
           else .ok t1) with
    | .error e => .error e
    | .ok t2 =>
      match (step run t2 .pull).map (fun x => x.1) with
      | .error e => .error e
      | .ok t3 =>
        if !(stripWs r1.stdout).isEmpty
        then (step run t3 .stashPop).map (fun x => x.1)
        else .ok t3

/-- Phase 2 of `manage_git_repository` (lines 106−136): re-check status,
stop if clean, else derive the commit message and add/commit/push. -/
def commitPhase (run : GitCmd → Option ExecResult) (t4 : List GitCmd) :
    Except (List GitCmd × SyncOutcome) (List GitCmd × SyncOutcome) :=
  match step run t4 .status with
  | .error e => .error e
  | .ok (t5, r5) =>
    if (stripWs r5.stdout).isEmpty then .ok (t5, .noChanges)
    else
      match (step run t5 .add).map (fun x => x.1) with
      | .error e => .error e
      | .ok t6 =>
        match (step run t6
            (.commit (commitMessage
              (splitOnChar '\n' (stripWs r5.stdout))))).map
            (fun x => x.1) with
        | .error e => .error e
        | .ok t7 =>
          match (step run t7 .push).map (fun x => x.1) with
          | .error e => .error e
          | .ok t8 => .ok (t8, .completed)

/-- The body of `manage_git_repository` inside its `try`: each failing
step short-circuits with `.error`. -/
def manageE (run : GitCmd → Option ExecResult) :
    Except (List GitCmd × SyncOutcome) (List GitCmd × SyncOutcome) :=
  match syncPhase run with
  | .error e => .error e
  | .ok t4 => commitPhase run t4

/-- `manage_git_repository`: the `try/except` collapses both paths into a
normal return carrying the executed-command trace and the outcome. -/
def manage_git_repository (run : GitCmd → Option ExecResult) :
    List GitCmd × SyncOutcome :=
  match manageE run with
  | .ok x => x
  | .error x => x

/-! ## Orchestrator (`main`, lines 148−164) -/

/-- What one run of `main` did: the library content afterwards and which
stages ran.  The synchronizer receives the oracle `run` but never touches
the library text itself (it only shells out to git), so the final content
is decided entirely by the scanner/patcher stages. -/
structure MainTrace where
  finalContent : List Char
  patcherInvoked : Bool
  syncInvoked : Bool
  syncResult : Option (List GitCmd × SyncOutcome)
deriving DecidableEq

/-- `main`: scan, short-circuit on an empty scan, else patch then sync. -/
def mainModel (isdir : Bool) (listing : List (List Char)) (sep : Char)
    (content : List Char) (run : GitCmd → Option ExecResult) : MainTrace :=
  let disk_files := get_animation_files_from_disk isdir listing sep
  if disk_files.isEmpty then
    ⟨content, false, false, none⟩
  else
    ⟨patchedContent disk_files content, true, true,
      some (manage_git_repository run)⟩

/-! ## Collector (`collect.py`) -/

/-- `whitelist_ext = {'.html'}`. -/
def whitelist_ext : List (List Char) := [".html".data]

/-- `blacklist_ext = {}` (an empty dict, hence falsy: its check is skipped). -/
def blacklist_ext : List (List Char) := []

/-- `os.path.splitext(name)[1]` for a bare file name (no separators):
the suffix starting at the last dot, except that leading dots of the
name never begin an extension. -/
def splitextExt (name : List Char) : List Char :=
  let stem := name.dropWhile (fun c => c = '.')
  if '.' ∈ stem then
    '.' :: (stem.reverse.takeWhile (fun c => c ≠ '.')).reverse
  else []

/-- The whitelist/blacklist test of `collect.py` lines 17−20, on the
lowercased extension. -/
def extAllowed (ext : List Char) : Bool :=
  !(!whitelist_ext.isEmpty && !(ext ∈ whitelist_ext)) &&
    !(!blacklist_ext.isEmpty && (ext ∈ blacklist_ext))

/-- `os.path.join(dirpath, filename)` (POSIX, relative second argument). -/
def pjoin (d f : List Char) : List Char :=
  if d.isEmpty then f
  else if d.getLast? = some '/' then d ++ f else d ++ '/' :: f

/-- `collect_code`: walk output is the oracle `walk` (directory path and
its file names, in `os.walk` order); `readFile` returns `none` when the
`open`/`read` raises (that file is reported and skipped, the loop
continues). -/
def collect_code (walk : List (List Char × List (List Char)))
    (readFile : List Char → Option (List Char)) :
    List (List Char × List Char) :=
  walk.flatMap (fun dw =>
    dw.2.flatMap (fun filename =>
      let ext := (splitextExt filename).map Char.toLower
      if extAllowed ext then
        match readFile (pjoin dw.1 filename) with
        | some c => [(pjoin dw.1 filename, c)]
        | none => []
      else []))

/-! ## Lemmas: the regex match -/

theorem notRB_rbracket : notRB ']' = false := by simp [notRB]

theorem notRB_true_iff {c : Char} : notRB c = true ↔ c ≠ ']' := by simp [notRB]

theorem dropWhile_notRB (b r : List Char) (hb : ∀ c ∈ b, c ≠ ']') :
    (b ++ ']' :: r).dropWhile notRB = ']' :: r := by
  have h1 : b.dropWhile notRB = [] :=
    List.dropWhile_eq_nil_iff.mpr (fun x hx => notRB_true_iff.mpr (hb x hx))
  rw [List.dropWhile_append, h1, List.dropWhile_cons, notRB_rbracket]
  simp

theorem takeWhile_notRB (b r : List Char) (hb : ∀ c ∈ b, c ≠ ']') :
    (b ++ ']' :: r).takeWhile notRB = b := by
  have h1 : b.takeWhile notRB = b :=
    List.takeWhile_eq_self_iff.mpr (fun x hx => notRB_true_iff.mpr (hb x hx))
  rw [List.takeWhile_append, h1, if_pos rfl, List.takeWhile_cons, notRB_rbracket]
  simp

/-- A successful anchored match decomposes the text as
`header ++ body ++ "];" ++ post` with a `]`-free body. -/
theorem tryMatch_some {l b p : List Char} (h : tryMatch l = some (b, p)) :
    l = headerC ++ b ++ ']' :: ';' :: p ∧ ∀ c ∈ b, c ≠ ']' := by
  unfold tryMatch at h
  split at h
  case isTrue hpre =>
    obtain ⟨t, ht⟩ := hpre
    have hdrop : l.drop headerC.length = t := by rw [← ht, List.drop_left]
    rw [hdrop] at h
    split at h
    case h_1 post heq =>
      simp only [Option.some.injEq, Prod.mk.injEq] at h
      obtain ⟨hb, hp⟩ := h
      have hbody : ∀ c ∈ b, c ≠ ']' := by
        intro c hc
        rw [← hb] at hc
        exact notRB_true_iff.mp (List.mem_takeWhile_imp hc)
      have ht' : t = b ++ ']' :: ';' :: p := by
        conv_lhs => rw [← List.takeWhile_append_dropWhile notRB t]
        rw [heq, hb, hp]
      exact ⟨by rw [← ht, ht', List.append_assoc], hbody⟩
    case h_2 => exact absurd h (by simp)
  case isFalse => exact absurd h (by simp)

/-- Conversely, the match succeeds on any text of that shape and returns
exactly the body and the trailing text. -/
theorem tryMatch_struct (b p : List Char) (hb : ∀ c ∈ b, c ≠ ']') :
    tryMatch (headerC ++ b ++ ']' :: ';' :: p) = some (b, p) := by
  have hpre : headerC <+: headerC ++ b ++ ']' :: ';' :: p := by
    rw [List.append_assoc]; exact List.prefix_append _ _
  have hdrop : (headerC ++ b ++ ']' :: ';' :: p).drop headerC.length
      = b ++ ']' :: ';' :: p := by
    rw [List.append_assoc, List.drop_left]
  unfold tryMatch
  rw [if_pos hpre, hdrop, dropWhile_notRB b _ hb]
  rw [takeWhile_notRB b _ hb]
  exact rfl

/-- If the matched group 0 occurs as a prefix somewhere, the anchored match
succeeds there with the same body. -/
theorem tryMatch_of_group0_prefix {b : List Char} (l : List Char)
    (hb : ∀ c ∈ b, c ≠ ']') (hpre : (headerC ++ b ++ [']', ';']) <+: l) :
    tryMatch l = some (b, l.drop (headerC ++ b ++ [']', ';']).length) := by
  obtain ⟨t, ht⟩ := hpre
  have hl : headerC ++ b ++ [']', ';'] ++ t = headerC ++ b ++ ']' :: ';' :: t := by
    simp
  rw [← ht, List.drop_left, hl, tryMatch_struct b t hb]

/-- Structure theorem for `re.search`: a hit decomposes the document, the
body is `]`-free, and the match fails at every earlier position. -/
theorem searchArr_some {content pre body post : List Char}
    (h : searchArr content = some (pre, body, post)) :
    content = pre ++ headerC ++ body ++ ']' :: ';' :: post ∧
      (∀ c ∈ body, c ≠ ']') ∧
      ∀ i < pre.length, tryMatch (content.drop i) = none := by
  induction content generalizing pre body post with
  | nil => simp [searchArr] at h
  | cons c cs ih =>
    rw [searchArr] at h
    cases htm : tryMatch (c :: cs) with
    | some bp =>
      obtain ⟨b, p⟩ := bp
      rw [htm] at h
      simp only [Option.some.injEq, Prod.mk.injEq] at h
      obtain ⟨rfl, rfl, rfl⟩ := h
      obtain ⟨hdec, hbody⟩ := tryMatch_some htm
      exact ⟨by simpa using hdec, hbody, by intro i hi; simp at hi⟩
    | none =>
      rw [htm] at h
      cases hs : searchArr cs with
      | none => rw [hs] at h; cases h
      | some t =>
        obtain ⟨pre', b, p⟩ := t
        rw [hs] at h
        simp only [Option.some.injEq, Prod.mk.injEq] at h
        obtain ⟨rfl, rfl, rfl⟩ := h
        obtain ⟨h1, h2, h3⟩ := ih hs
        refine ⟨by simp only [List.cons_append]; rw [h1], h2, ?_⟩
        intro i hi
        match i with
        | 0 => simpa using htm
        | j + 1 =>
          have hdj : (c :: cs).drop (j + 1) = cs.drop j := by simp
          rw [hdj]
          exact h3 j (by simpa using hi)

/-- `tryMatch` never succeeds on the empty text. -/
theorem tryMatch_nil : tryMatch ([] : List Char) = none := by
  unfold tryMatch
  rw [if_neg]
  intro hc
  exact absurd (List.prefix_nil.mp hc) (by decide)

/-- If the anchored match succeeds at the very start, `re.search` returns
it with an empty prefix. -/
theorem searchArr_of_tryMatch {content b p : List Char}
    (h : tryMatch content = some (b, p)) : searchArr content = some ([], b, p) := by
  cases content with
  | nil => rw [tryMatch_nil] at h; cases h
  | cons c cs => rw [searchArr, h]

/-- One unfolding step of `re.search` when the current position fails. -/
theorem searchArr_cons_none {c : Char} {cs : List Char}
    (h : tryMatch (c :: cs) = none) :
    searchArr (c :: cs) =
      match searchArr cs with
      | some (pre, b, p) => some (c :: pre, b, p)
      | none => none := by
  rw [searchArr, h]

/-- Converse of `searchArr_some`: a document of the matched shape whose
earlier positions all fail is found exactly there. -/
theorem searchArr_of {pre b p : List Char} (content : List Char)
    (hc : content = pre ++ headerC ++ b ++ ']' :: ';' :: p)
    (hb : ∀ c ∈ b, c ≠ ']')
    (hfail : ∀ i < pre.length, tryMatch (content.drop i) = none) :
    searchArr content = some (pre, b, p) := by
  subst hc
  induction pre with
  | nil =>
    exact searchArr_of_tryMatch (by simpa using tryMatch_struct b p hb)
  | cons a pre' ih =>
    have h0 : tryMatch (a :: (pre' ++ headerC ++ b ++ ']' :: ';' :: p)) = none := by
      simpa using hfail 0 (by simp)
    have hrest : searchArr (pre' ++ headerC ++ b ++ ']' :: ';' :: p) =
        some (pre', b, p) := by
      refine ih ?_
      intro i hi
      have := hfail (i + 1) (by simpa using Nat.succ_lt_succ hi)
      simpa using this
    rw [show (a :: pre') ++ headerC ++ b ++ ']' :: ';' :: p
        = a :: (pre' ++ headerC ++ b ++ ']' :: ';' :: p) by simp,
      searchArr_cons_none h0, hrest]

/-! ## Lemmas: Python `str.replace` -/

theorem replaceAll_nil (pat rep : List Char) : replaceAll pat rep [] = [] :=
  rfl

theorem replaceAll_cons (pat rep : List Char) (c : Char) (cs : List Char) :
    replaceAll pat rep (c :: cs) =
      if pat ≠ [] ∧ pat <+: (c :: cs) then
        rep ++ replaceAll pat rep (cs.drop (pat.length - 1))
      else
        c :: replaceAll pat rep cs := by
  show (if pat ≠ [] ∧ pat <+: (c :: cs) then
      rep ++ replaceAllGo pat rep cs.length (cs.drop (pat.length - 1))
    else c :: replaceAllGo pat rep cs.length cs) = _
  by_cases h : pat ≠ [] ∧ pat <+: (c :: cs)
  · rw [if_pos h, if_pos h]
    unfold replaceAll
    rw [replaceAllGo_fuel pat rep cs.length (cs.drop (pat.length - 1)).length
      (cs.drop (pat.length - 1)) (by simp) le_rfl]
  · rw [if_neg h, if_neg h]
    rfl

/-- A text in which the pattern never occurs is left unchanged. -/
theorem replaceAll_of_no_occur (pat rep s : List Char)
    (h : ∀ i, ¬ pat <+: s.drop i) : replaceAll pat rep s = s := by
  induction s with
  | nil => exact replaceAll_nil pat rep
  | cons c cs ih =>
    rw [replaceAll_cons, if_neg]
    · congr 1
      refine ih ?_
      intro i hp
      exact h (i + 1) (by simpa using hp)
    · rintro ⟨-, hp⟩
      exact h 0 (by simpa using hp)

/-- Replacing a pattern by itself changes nothing. -/
theorem replaceAll_self (pat s : List Char) : replaceAll pat pat s = s := by
  generalize hn : s.length = n
  induction n using Nat.strong_induction_on generalizing s with
  | _ n ih =>
    cases s with
    | nil => exact replaceAll_nil pat pat
    | cons c cs =>
      rw [replaceAll_cons]
      by_cases h : pat ≠ [] ∧ pat <+: (c :: cs)
      · rw [if_pos h]
        obtain ⟨hne, t, ht⟩ := h
        cases pat with
        | nil => exact absurd rfl hne
        | cons q qt =>
          have hc : c :: cs = q :: (qt ++ t) := by
            rw [← ht]; simp
          have hcs : cs = qt ++ t := by
            injection hc with _ h2
          have hdrop : cs.drop ((q :: qt).length - 1) = t := by
            rw [hcs]
            simp only [List.length_cons, Nat.add_sub_cancel]
            exact List.drop_left qt t
          have hlen : n = qt.length + 1 + t.length := by
            rw [← hn, ← ht]
            simp [List.length_append, List.length_cons]
            omega
          rw [hdrop, ih t.length (by omega) t rfl]
          rw [← ht]
      · rw [if_neg h]
        congr 1
        have hlen : cs.length + 1 = n := by
          simpa using hn
        exact ih cs.length (by omega) cs rfl

/-- Replacing the leftmost occurrence when no occurrence starts earlier:
the prefix is preserved, the occurrence becomes `rep`, and the scan
continues after it. -/
theorem replaceAll_structured (pat rep P S : List Char) (hne : pat ≠ [])
    (hfail : ∀ i < P.length, ¬ pat <+: (P ++ pat ++ S).drop i) :
    replaceAll pat rep (P ++ pat ++ S) = P ++ rep ++ replaceAll pat rep S := by
  induction P with
  | nil =>
    cases pat with
    | nil => exact absurd rfl hne
    | cons q qt =>
      have hsh : ([] : List Char) ++ (q :: qt) ++ S = q :: (qt ++ S) := by simp
      rw [hsh, replaceAll_cons, if_pos]
      · have hdrop : (qt ++ S).drop ((q :: qt).length - 1) = S := by
          simp only [List.length_cons, Nat.add_sub_cancel]
          exact List.drop_left qt S
        rw [hdrop]
        simp
      · exact ⟨hne, by simp⟩
  | cons a P' ih =>
    have hsh : (a :: P') ++ pat ++ S = a :: (P' ++ pat ++ S) := by simp
    rw [hsh, replaceAll_cons, if_neg]
    · have := ih (fun i hi => by
        have h1 := hfail (i + 1) (by simpa using Nat.succ_lt_succ hi)
        rw [hsh] at h1
        simpa using h1)
      rw [this]
      simp
    · rintro ⟨-, hp⟩
      have h0 := hfail 0 (by simp)
      rw [hsh] at h0
      exact h0 (by simpa using hp)

/-! ## Lemmas: the canonical sorted entry list -/

/-- `pyLe` is exactly the lexicographic `<`-or-`=` on `List Char`. -/
theorem pyLe_iff (a b : List Char) : pyLe a b = true ↔ a < b ∨ a = b := by
  induction a generalizing b with
  | nil =>
    cases b with
    | nil => exact iff_of_true rfl (Or.inr rfl)
    | cons c cs => exact iff_of_true rfl (Or.inl List.Lex.nil)
  | cons a as ih =>
    cases b with
    | nil =>
      refine iff_of_false (by simp [pyLe]) ?_
      rintro (h | h)
      · exact List.Lex.not_nil_right _ _ h
      · cases h
    | cons b bs =>
      show (if a < b then true else if a = b then pyLe as bs else false)
          = true ↔ _
      rcases lt_trichotomy a b with h1 | h1 | h1
      · rw [if_pos h1]
        exact iff_of_true rfl (Or.inl (List.Lex.rel h1))
      · subst h1
        rw [if_neg (lt_irrefl a), if_pos rfl, ih bs]
        constructor
        · rintro (h | rfl)
          · exact Or.inl (List.Lex.cons h)
          · exact Or.inr rfl
        · rintro (h | h)
          · cases h with
            | rel h' => exact absurd h' (lt_irrefl a)
            | cons h' => exact Or.inl h'
          · injection h with _ h'
            exact Or.inr h'
      · rw [if_neg (lt_asymm h1), if_neg (ne_of_gt h1)]
        refine iff_of_false (by simp) ?_
        rintro (h | h)
        · cases h with
          | rel h' => exact absurd h' (lt_asymm h1)
          | cons _ => exact absurd rfl (ne_of_gt h1)
        · injection h with h' _
          exact absurd h' (ne_of_gt h1)

/-- `pyLe` agrees with `≤` on `List Char`. -/
theorem pyLe_iff_le (a b : List Char) : pyLe a b = true ↔ a ≤ b := by
  rw [le_iff_lt_or_eq]
  exact pyLe_iff a b

instance : IsTotal (List Char) (fun a b => pyLe a b = true) :=
  ⟨fun a b => by
    rw [pyLe_iff_le, pyLe_iff_le]
    exact le_total a b⟩

instance : IsTrans (List Char) (fun a b => pyLe a b = true) :=
  ⟨fun a b c hab hbc => by
    rw [pyLe_iff_le] at hab hbc ⊢
    exact le_trans hab hbc⟩

theorem canonList_sorted (disk : List (List Char)) :
    (canonList disk).Sorted (fun a b => a ≤ b) := by
  have h := List.sorted_insertionSort (fun a b => pyLe a b = true) disk.dedup
  exact h.imp (fun hab => (pyLe_iff_le _ _).mp hab)

theorem canonList_perm (disk : List (List Char)) :
    (canonList disk).Perm disk.dedup :=
  List.perm_insertionSort _ _

theorem canonList_nodup (disk : List (List Char)) : (canonList disk).Nodup :=
  ((canonList_perm disk).nodup_iff).mpr (List.nodup_dedup disk)

theorem canonList_mem (disk : List (List Char)) (f : List Char) :
    f ∈ canonList disk ↔ f ∈ disk :=
  ((canonList_perm disk).mem_iff).trans List.mem_dedup

theorem canonList_sorted_lt (disk : List (List Char)) :
    (canonList disk).Sorted (fun a b => a < b) :=
  List.Sorted.lt_of_le (canonList_sorted disk) (canonList_nodup disk)

theorem canonList_toFinset (disk : List (List Char)) :
    (canonList disk).toFinset = disk.toFinset := by
  ext f
  simp only [List.mem_toFinset]
  exact canonList_mem disk f

/-! ## Lemmas: unfolding `update_library_file` -/

theorem update_of_searchArr_none {disk : List (List Char)} {content : List Char}
    (hs : searchArr content = none) :
    update_library_file disk content = .patternNotFound := by
  unfold update_library_file
  rw [hs]

theorem update_of_sets_eq {disk : List (List Char)}
    {content pre body post : List Char}
    (hs : searchArr content = some (pre, body, post))
    (heq : disk.toFinset = (parseEntries (body.dropWhile isSpaceC)).toFinset) :
    update_library_file disk content = .upToDate := by
  unfold update_library_file
  rw [hs]
  exact if_pos heq

theorem update_of_sets_ne {disk : List (List Char)}
    {content pre body post : List Char}
    (hs : searchArr content = some (pre, body, post))
    (hne : disk.toFinset ≠ (parseEntries (body.dropWhile isSpaceC)).toFinset) :
    update_library_file disk content =
      .updated (replaceAll (headerC ++ body ++ [']', ';'])
        (newArrayStr (canonList disk)) content) := by
  unfold update_library_file
  rw [hs]
  exact if_neg hne

/-! ## Sample documents used by witnesses and counterexamples -/

/-- A document with one embedded array listing only `Anim/spin.html`. -/
def sampleDoc : List Char :=
  "<script>const animationFiles = [\"Anim/spin.html\"];</script>".data

/-- Target scan result: spin and fade. -/
def sampleDisk : List (List Char) :=
  ["Anim/spin.html".data, "Anim/fade.html".data]

/-- A document that does not contain the array pattern at all. -/
def noArrDoc : List Char := "<html>no array here</html>".data

/-! ## Claim C1 -/

/-- C1: whenever the parsed entry set of the embedded array differs from
the target file-entry set, the patcher rewrites the document by replacing
the matched array literal with `newArrayStr (canonList disk)` — whose
entry list contains every member of the target set (and nothing else,
in particular no dropped old entry), each exactly once (`Nodup`), in
strictly ascending lexicographic order, and `newArrayStr`/`formattedFiles`
place each entry double-quoted on its own line with the fixed 12-space
indentation inside the original declaration wrapper. -/
theorem claim_C1 (disk : List (List Char)) (content pre body post : List Char)
    (hs : searchArr content = some (pre, body, post))
    (hne : disk.toFinset ≠ (parseEntries (body.dropWhile isSpaceC)).toFinset) :
    update_library_file disk content =
      .updated (replaceAll (headerC ++ body ++ [']', ';'])
        (newArrayStr (canonList disk)) content) ∧
    (∀ f, f ∈ canonList disk ↔ f ∈ disk) ∧
    (canonList disk).Nodup ∧
    (canonList disk).Sorted (fun a b => a < b) :=
  ⟨update_of_sets_ne hs hne, canonList_mem disk, canonList_nodup disk,
    canonList_sorted_lt disk⟩

/-- Witness for C1 at the spec scenario: array holds only spin, disk holds
spin and fade, so the patcher rewrites. -/
theorem claim_C1_witness :
    update_library_file sampleDisk sampleDoc =
      .updated (replaceAll (headerC ++ "\"Anim/spin.html\"".data ++ [']', ';'])
        (newArrayStr (canonList sampleDisk)) sampleDoc) :=
  (claim_C1 sampleDisk sampleDoc "<script>".data "\"Anim/spin.html\"".data
    "</script>".data rfl (by decide)).1

/-! ## Claim C6 -/

/-- C6: if the array pattern is absent from the document, the patcher
returns the error result (`patternNotFound`, the `print`-and-`return
False` branch of lines 40−42) and the document on disk is unchanged. -/
theorem claim_C6 (disk : List (List Char)) (content : List Char)
    (hs : searchArr content = none) :
    update_library_file disk content = .patternNotFound ∧
      patchedContent disk content = content := by
  refine ⟨update_of_searchArr_none hs, ?_⟩
  unfold patchedContent
  rw [update_of_searchArr_none hs]

/-- Witness for C6 on a concrete pattern-free document. -/
theorem claim_C6_witness :
    update_library_file ["Anim/a.html".data] noArrDoc = .patternNotFound ∧
      patchedContent ["Anim/a.html".data] noArrDoc = noArrDoc :=
  claim_C6 ["Anim/a.html".data] noArrDoc rfl

/-! ## Claim C7 -/

/-- C7: the scanner returns exactly the immediate `.html`-suffixed names of
the listing, each prefixed with `Anim` plus a separator normalized to `/`;
a missing directory reports an error (the `false` branch) and yields the
empty set.  `sep` is the platform separator inserted by `os.path.join`. -/
theorem claim_C7 (isdir : Bool) (listing : List (List Char)) (sep : Char)
    (hsep : sep = '/' ∨ sep = '\\') :
    (isdir = false → get_animation_files_from_disk isdir listing sep = []) ∧
    (isdir = true → ∀ g, g ∈ get_animation_files_from_disk isdir listing sep ↔
      ∃ f ∈ listing, ".html".data <:+ f ∧ g = "Anim/".data ++ normSlash f) := by
  constructor
  · intro h
    simp [get_animation_files_from_disk, h]
  · intro h g
    have hjoin : ∀ f : List Char,
        normSlash (ANIM_FOLDER ++ sep :: f) = "Anim/".data ++ normSlash f := by
      intro f
      rcases hsep with rfl | rfl
      · rfl
      · rfl
    simp only [get_animation_files_from_disk, h, if_true, List.mem_map,
      List.mem_filter, decide_eq_true_eq]
    constructor
    · rintro ⟨f, ⟨hf, hsuf⟩, rfl⟩
      exact ⟨f, hf, hsuf, hjoin f⟩
    · rintro ⟨f, hf, hsuf, rfl⟩
      exact ⟨f, ⟨hf, hsuf⟩, hjoin f⟩

/-- Witness for C7: missing directory yields the empty set. -/
theorem claim_C7_witness :
    get_animation_files_from_disk false ["a.html".data] '/' = [] :=
  (claim_C7 false ["a.html".data] '/' (Or.inl rfl)).1 rfl

/-! ## Claim C9 -/

/-- C9: when the scan comes back empty, `main` returns before invoking the
patcher or the synchronizer, and the library content is untouched. -/
theorem claim_C9 (isdir : Bool) (listing : List (List Char)) (sep : Char)
    (content : List Char) (run : GitCmd → Option ExecResult)
    (h : get_animation_files_from_disk isdir listing sep = []) :
    mainModel isdir listing sep content run =
      ⟨content, false, false, none⟩ := by
  unfold mainModel
  rw [h]
  rfl

/-- Witness for C9: no `.html` files in the listing. -/
theorem claim_C9_witness :
    mainModel true ["readme.txt".data] '/' sampleDoc (fun _ => none) =
      ⟨sampleDoc, false, false, none⟩ :=
  claim_C9 true ["readme.txt".data] '/' sampleDoc (fun _ => none) rfl

/-! ## Claim C5 -/

/-- The untracked-line test of line 120: `line.startswith('??')`. -/
def isUntrackedLine (l : List Char) : Bool := decide ("??".data <+: l)

/-- The modified-line test of line 124: `line.strip().startswith('M')`. -/
def isModifiedLine (l : List Char) : Bool := decide ("M".data <+: stripWs l)

theorem filter_head?_eq_find? {α : Type} (p : α → Bool) (l : List α) :
    (l.filter p).head? = l.find? p := by
  induction l with
  | nil => rfl
  | cons c cs ih =>
    by_cases h : p c
    · rw [List.filter_cons_of_pos h, List.find?_cons_of_pos _ h]
      rfl
    · rw [List.filter_cons_of_neg (by simpa using h),
        List.find?_cons_of_neg _ (by simpa using h)]
      exact ih

/-- The commit message equals a first-match cascade over the status lines. -/
theorem commitMessage_eq (lines : List (List Char)) :
    commitMessage lines =
      match lines.find? isUntrackedLine with
      | some a => "Add ".data ++ basenameC (a.drop 3)
      | none =>
        match lines.find? isModifiedLine with
        | some m => "Update ".data ++ basenameC (m.drop 3)
        | none => defaultMsg := by
  unfold commitMessage
  rw [show (fun l => decide ("??".data <+: l)) = isUntrackedLine from rfl,
    show (fun l => decide ("M".data <+: stripWs l)) = isModifiedLine from rfl]
  cases hu : lines.find? isUntrackedLine with
  | some a =>
    rw [← filter_head?_eq_find?] at hu
    obtain ⟨t, ht⟩ := List.head?_eq_some_iff.mp hu
    rw [ht]
    rfl
  | none =>
    have hfe : lines.filter isUntrackedLine = [] := by
      have := (filter_head?_eq_find? isUntrackedLine lines).trans hu
      exact List.head?_eq_none_iff.mp this
    rw [hfe]
    cases hm : lines.find? isModifiedLine with
    | some m =>
      rw [← filter_head?_eq_find?] at hm
      obtain ⟨t, ht⟩ := List.head?_eq_some_iff.mp hm
      rw [ht]
      rfl
    | none =>
      have hfm : lines.filter isModifiedLine = [] := by
        have := (filter_head?_eq_find? isModifiedLine lines).trans hm
        exact List.head?_eq_none_iff.mp this
      rw [hfm]
      rfl

/-- C5: commit-message derivation from the final status lines — an
untracked (`??`) line takes priority and yields `Add <basename>`, else
the first modified line yields `Update <basename>`, else the fixed
default message; only the first qualifying line (in reported order,
via `find?`) matters, and `drop 3` is the `line[3:]` path slice. -/
theorem claim_C5 (lines : List (List Char)) :
    (∀ a, lines.find? isUntrackedLine = some a →
        commitMessage lines = "Add ".data ++ basenameC (a.drop 3)) ∧
    (lines.find? isUntrackedLine = none →
      ∀ m, lines.find? isModifiedLine = some m →
        commitMessage lines = "Update ".data ++ basenameC (m.drop 3)) ∧
    (lines.find? isUntrackedLine = none →
      lines.find? isModifiedLine = none →
      commitMessage lines = defaultMsg) := by
  refine ⟨?_, ?_, ?_⟩
  · intro a ha
    rw [commitMessage_eq, ha]
  · intro hu m hm
    rw [commitMessage_eq, hu, hm]
  · intro hu hm
    rw [commitMessage_eq, hu, hm]

/-- Witness for C5 at the spec scenario: one untracked `Anim/new.html` and
one modified `Animation Library.html` give `Add new.html`. -/
theorem claim_C5_witness :
    commitMessage
      ["?? Anim/new.html".data, " M Animation Library.html".data] =
      "Add new.html".data := by
  have h := (claim_C5
    ["?? Anim/new.html".data, " M Animation Library.html".data]).1
    "?? Anim/new.html".data (by decide)
  exact h

/-! ## Claim C10 -/

/-- With the configured nonempty whitelist and empty blacklist, a file
passes the extension test iff its extension is whitelisted. -/
theorem extAllowed_iff (ext : List Char) :
    extAllowed ext = true ↔ ext ∈ whitelist_ext := by
  simp [extAllowed, whitelist_ext, blacklist_ext]

/-- C10: soundness and completeness of the collector's walk — every
collected pair comes from a walked file whose lowercased extension is
whitelisted and whose read succeeded; and a readable whitelisted file is
collected even if other files fail to read (failures are skipped without
aborting the loop). -/
theorem claim_C10 (walk : List (List Char × List (List Char)))
    (readFile : List Char → Option (List Char)) :
    (∀ p c, (p, c) ∈ collect_code walk readFile →
      ∃ d fns f, (d, fns) ∈ walk ∧ f ∈ fns ∧ p = pjoin d f ∧
        (splitextExt f).map Char.toLower ∈ whitelist_ext ∧
        readFile p = some c) ∧
    (∀ d fns f c, (d, fns) ∈ walk → f ∈ fns →
      (splitextExt f).map Char.toLower ∈ whitelist_ext →
      readFile (pjoin d f) = some c →
      (pjoin d f, c) ∈ collect_code walk readFile) := by
  constructor
  · intro p c hpc
    unfold collect_code at hpc
    rw [List.mem_flatMap] at hpc
    obtain ⟨dw, hdw, hin⟩ := hpc
    rw [List.mem_flatMap] at hin
    obtain ⟨f, hf, hin2⟩ := hin
    by_cases hext : extAllowed ((splitextExt f).map Char.toLower) = true
    · rw [if_pos hext] at hin2
      cases hr : readFile (pjoin dw.1 f) with
      | some c' =>
        rw [hr] at hin2
        simp only [List.mem_singleton, Prod.mk.injEq] at hin2
        obtain ⟨rfl, rfl⟩ := hin2
        exact ⟨dw.1, dw.2, f, hdw, hf, rfl, (extAllowed_iff _).mp hext, hr⟩
      | none =>
        rw [hr] at hin2
        simp at hin2
    · rw [if_neg hext] at hin2
      simp at hin2
  · intro d fns f c hdw hf hext hr
    unfold collect_code
    rw [List.mem_flatMap]
    refine ⟨(d, fns), hdw, ?_⟩
    rw [List.mem_flatMap]
    refine ⟨f, hf, ?_⟩
    rw [if_pos ((extAllowed_iff _).mpr hext), hr]
    simp

/-- Concrete walk for the C10 witness: one directory with three files. -/
def sampleWalk : List (List Char × List (List Char)) :=
  [(".".data, ["index.html".data, "b.html".data, "c.txt".data])]

/-- Concrete reader for the C10 witness: only `./index.html` is readable. -/
def sampleReadFile : List Char → Option (List Char) :=
  fun p => if p = pjoin ".".data "index.html".data
    then some "<x>".data else none

/-- Witness for C10: `index.html` is collected, even though `b.html` fails
to read and `c.txt` is not whitelisted. -/
theorem claim_C10_witness :
    (pjoin ".".data "index.html".data, "<x>".data) ∈
      collect_code sampleWalk sampleReadFile :=
  (claim_C10 sampleWalk sampleReadFile).2 ".".data
    ["index.html".data, "b.html".data, "c.txt".data]
    "index.html".data "<x>".data
    (by simp [sampleWalk]) (by simp) (by decide) (by decide)

/-! ## Claim C3 -/

/-- One embedded-array literal: `const animationFiles = ["Anim/a.html"];`. -/
def docA : List Char := "const animationFiles = [\"Anim/a.html\"];".data

/-- A document containing the identical literal twice. -/
def docAA : List Char := docA ++ docA

/-- Counterexample to C3 as stated: on `docAA` the first matched span is
the first copy of `docA` (the text after it being the second copy), so
"every character outside the first matched span is unchanged" would force
the output to retain the second copy — to end with `docA`.  The code's
`content.replace(old, new)` replaces **all** occurrences of the matched
string, so the output does not end with `docA`. -/
theorem claim_C3_counterexample :
    patchChanged ["Anim/b.html".data] docAA = true ∧
      searchArr docAA = some ([], "\"Anim/a.html\"".data, docA) ∧
      ¬ docA <:+ patchedContent ["Anim/b.html".data] docAA := by
  refine ⟨by decide, by decide, by decide⟩

/-- C3 (amended): the rewrite replaces every occurrence of the substring
equal to the first matched span (group 0); provided that substring does
not occur again in the text after the match — in particular under the
documented invariant that the document contains the pattern only once —
the result keeps every character outside the first matched span
unchanged: it is `pre ++ new-literal ++ post`. -/
theorem claim_C3 (disk : List (List Char)) (content pre body post : List Char)
    (hs : searchArr content = some (pre, body, post))
    (hne : disk.toFinset ≠ (parseEntries (body.dropWhile isSpaceC)).toFinset)
    (hpost : ∀ i < post.length,
      ¬ (headerC ++ body ++ [']', ';']) <+: post.drop i) :
    patchedContent disk content =
      pre ++ newArrayStr (canonList disk) ++ post ∧
    patchChanged disk content = true := by
  obtain ⟨hdec, hbody, hfailpre⟩ := searchArr_some hs
  have hupd := update_of_sets_ne hs hne
  have hg0ne : headerC ++ body ++ [']', ';'] ≠ [] := by simp [headerC]
  have hcontent : content = pre ++ (headerC ++ body ++ [']', ';']) ++ post := by
    rw [hdec]
    simp
  have hpost' : ∀ i, ¬ (headerC ++ body ++ [']', ';']) <+: post.drop i := by
    intro i hp
    by_cases hi : i < post.length
    · exact hpost i hi hp
    · rw [List.drop_eq_nil_of_le (by omega)] at hp
      exact hg0ne (List.prefix_nil.mp hp)
  have hfail : ∀ i < pre.length,
      ¬ (headerC ++ body ++ [']', ';']) <+:
        (pre ++ (headerC ++ body ++ [']', ';']) ++ post).drop i := by
    intro i hi hp
    have htm := tryMatch_of_group0_prefix _ hbody hp
    rw [← hcontent] at htm
    rw [hfailpre i hi] at htm
    cases htm
  have hrw : replaceAll (headerC ++ body ++ [']', ';'])
      (newArrayStr (canonList disk)) content =
      pre ++ newArrayStr (canonList disk) ++ post := by
    rw [hcontent, replaceAll_structured _ _ _ _ hg0ne hfail,
      replaceAll_of_no_occur _ _ _ hpost']
  constructor
  · unfold patchedContent
    rw [hupd, hrw]
  · unfold patchChanged
    rw [hupd]

/-- Witness for C3 (amended) on the single-occurrence sample document. -/
theorem claim_C3_witness :
    patchedContent sampleDisk sampleDoc =
      "<script>".data ++ newArrayStr (canonList sampleDisk) ++
        "</script>".data :=
  (claim_C3 sampleDisk sampleDoc "<script>".data "\"Anim/spin.html\"".data
    "</script>".data rfl (by decide) (by decide)).1

/-! ## Claim C4: round-trip machinery -/

theorem dropWhile_all_append {p : Char → Bool} (a m : List Char)
    (ha : ∀ c ∈ a, p c = true) : (a ++ m).dropWhile p = m.dropWhile p := by
  rw [List.dropWhile_append]
  have h : a.dropWhile p = [] := List.dropWhile_eq_nil_iff.mpr ha
  simp [h]

/-- Stripping a character class removes exactly the flanks when the core
has clean edges. -/
theorem pyStrip_sandwich (p : Char → Bool) (a m b : List Char)
    (ha : ∀ c ∈ a, p c = true) (hb : ∀ c ∈ b, p c = true)
    (hm : m ≠ [])
    (hhead : ∀ c, m.head? = some c → p c = false)
    (hlast : ∀ c, m.getLast? = some c → p c = false) :
    pyStrip p (a ++ m ++ b) = m := by
  obtain ⟨x, m', rfl⟩ := List.exists_cons_of_ne_nil hm
  have hx : p x = false := hhead x rfl
  unfold pyStrip
  rw [List.append_assoc, dropWhile_all_append a _ ha]
  have h1 : ((x :: m') ++ b).dropWhile p = (x :: m') ++ b := by
    rw [List.cons_append, List.dropWhile_cons, hx]
    simp
  rw [h1, List.reverse_append]
  rw [dropWhile_all_append b.reverse _ (fun c hc => hb c (by simpa using hc))]
  cases hrev : (x :: m').reverse with
  | nil => exact absurd hrev (by simp)
  | cons y ys =>
    have hy : p y = false := by
      refine hlast y ?_
      rw [← List.head?_reverse, hrev]
      rfl
    rw [List.dropWhile_cons, hy]
    simp only [Bool.false_eq_true, if_false]
    rw [← hrev, List.reverse_reverse]

/-- `quoteE f` never loses characters of `f` to quote-stripping when `f`
does not itself start or end with a quote character. -/
theorem stripQuotes_quoteE (f : List Char)
    (hhead : f.head?.all (fun c => !isQuoteC c) = true)
    (hlast : f.getLast?.all (fun c => !isQuoteC c) = true) :
    stripQuotes (quoteE f) = f := by
  cases f with
  | nil => rfl
  | cons x f' =>
    show pyStrip isQuoteC (['"'] ++ (x :: f') ++ ['"']) = x :: f'
    refine pyStrip_sandwich isQuoteC ['"'] (x :: f') ['"']
      (by decide) (by decide) (by simp) ?_ ?_
    · intro c hc
      simp only [List.head?_cons, Option.some.injEq] at hc
      subst hc
      simpa [Option.all] using hhead
    · intro c hc
      rw [hc] at hlast
      simpa [Option.all] using hlast

/-- `quoteE f` has non-space edges (the quotes), so whitespace-stripping a
whitespace-flanked quoted entry recovers exactly the quoted entry. -/
theorem stripWs_quoted (a b f : List Char)
    (ha : ∀ c ∈ a, isSpaceC c = true) (hb : ∀ c ∈ b, isSpaceC c = true) :
    stripWs (a ++ quoteE f ++ b) = quoteE f := by
  refine pyStrip_sandwich isSpaceC a (quoteE f) b ha hb (by simp [quoteE]) ?_ ?_
  · intro c hc
    simp only [quoteE, List.head?_cons, Option.some.injEq] at hc
    subst hc
    decide
  · intro c hc
    have : (quoteE f).getLast? = some '"' := by
      show (('"' :: f) ++ ['"']).getLast? = some '"'
      exact List.getLast?_concat _
    rw [this] at hc
    injection hc with h
    subst h
    decide

theorem splitOnChar_ne_nil (c : Char) (l : List Char) : splitOnChar c l ≠ [] := by
  cases l with
  | nil => simp [splitOnChar]
  | cons x xs =>
    rw [splitOnChar]
    by_cases h : x = c
    · simp [h]
    · rw [if_neg h]
      cases splitOnChar c xs <;> simp

theorem splitOnChar_not_mem {c : Char} {a : List Char} (h : c ∉ a) :
    splitOnChar c a = [a] := by
  induction a with
  | nil => rfl
  | cons x xs ih =>
    rw [splitOnChar, if_neg (by rintro rfl; exact h (by simp)),
      ih (fun hc => h (by simp [hc]))]

theorem splitOnChar_append {c : Char} {a b : List Char} (h : c ∉ a) :
    splitOnChar c (a ++ c :: b) = a :: splitOnChar c b := by
  induction a with
  | nil => simp [splitOnChar]
  | cons x xs ih =>
    rw [List.cons_append, splitOnChar,
      if_neg (by rintro rfl; exact h (by simp)),
      ih (fun hc => h (by simp [hc]))]

/-- One parsed entry per comma-separated quoted piece. -/
theorem parseEntries_cons (A B f : List Char) (hA : ',' ∉ A)
    (hstrip : stripWs A = quoteE f) (hq : stripQuotes (quoteE f) = f) :
    parseEntries (A ++ ',' :: B) = f :: parseEntries B := by
  unfold parseEntries
  rw [splitOnChar_append hA]
  rw [List.filter_cons_of_pos (by simp [hstrip, quoteE]), List.map_cons,
    hstrip, hq]

/-- A single comma-free piece parses to its one entry. -/
theorem parseEntries_single (A f : List Char) (hA : ',' ∉ A)
    (hstrip : stripWs A = quoteE f) (hq : stripQuotes (quoteE f) = f) :
    parseEntries A = [f] := by
  unfold parseEntries
  rw [splitOnChar_not_mem hA]
  rw [List.filter_cons_of_pos (by simp [hstrip, quoteE]), List.map_cons,
    hstrip, hq]
  rfl

theorem formattedFiles_nil : formattedFiles [] = [] := rfl

theorem formattedFiles_single (f : List Char) :
    formattedFiles [f] = quoteE f := by
  simp [formattedFiles, List.intercalate]

theorem formattedFiles_cons₂ (f g : List Char) (L : List (List Char)) :
    formattedFiles (f :: g :: L) =
      quoteE f ++ sepC ++ formattedFiles (g :: L) := by
  simp [formattedFiles, List.intercalate, List.intersperse]

/-- Membership in a quoted entry. -/
theorem mem_quoteE {c : Char} {f : List Char} (h : c ∈ quoteE f) :
    c = '"' ∨ c ∈ f := by
  simp only [quoteE, List.mem_cons, List.mem_append, List.mem_singleton] at h
  tauto

theorem sepC_no_rbracket : ∀ c ∈ sepC, c ≠ ']' := by decide

theorem nl12_all_space : ∀ c ∈ nl12, isSpaceC c = true := by decide

theorem nl8_all_space : ∀ c ∈ nl8, isSpaceC c = true := by decide

theorem nl12_no_rbracket : ∀ c ∈ nl12, c ≠ ']' := by decide

theorem nl8_no_rbracket : ∀ c ∈ nl8, c ≠ ']' := by decide

/-- Entries without `]` yield a `]`-free formatted body. -/
theorem formattedFiles_no_rbracket (L : List (List Char))
    (h : ∀ f ∈ L, ']' ∉ f) : ∀ c ∈ formattedFiles L, c ≠ ']' := by
  induction L with
  | nil => simp [formattedFiles_nil]
  | cons f L' ih =>
    have hqf : ∀ c ∈ quoteE f, c ≠ ']' := by
      intro c hc
      rcases mem_quoteE hc with rfl | hc
      · decide
      · rintro rfl
        exact h f (by simp) hc
    cases L' with
    | nil =>
      rw [formattedFiles_single]
      exact hqf
    | cons g L'' =>
      rw [formattedFiles_cons₂]
      intro c hc
      rcases List.mem_append.mp hc with hc | hc
      · rcases List.mem_append.mp hc with hc | hc
        · exact hqf c hc
        · exact sepC_no_rbracket c hc
      · exact ih (fun x hx => h x (by simp [hx])) c hc

/-- The search finds the produced literal at position 0 with the expected
body (entries must be `]`-free for the regex to span the whole literal). -/
theorem searchArr_newArrayStr (L : List (List Char))
    (h : ∀ f ∈ L, ']' ∉ f) :
    searchArr (newArrayStr L) =
      some ([], nl12 ++ formattedFiles L ++ nl8, []) := by
  have hb : ∀ c ∈ nl12 ++ formattedFiles L ++ nl8, c ≠ ']' := by
    intro c hc
    rcases List.mem_append.mp hc with hc | hc
    · rcases List.mem_append.mp hc with hc | hc
      · exact nl12_no_rbracket c hc
      · exact formattedFiles_no_rbracket L h c hc
    · exact nl8_no_rbracket c hc
  have hshape : newArrayStr L =
      headerC ++ (nl12 ++ formattedFiles L ++ nl8) ++ ']' :: ';' :: [] := by
    simp [newArrayStr]
  rw [hshape]
  exact searchArr_of_tryMatch (tryMatch_struct _ _ hb)

theorem isSpaceC_ne_comma {c : Char} (h : isSpaceC c = true) : c ≠ ',' := by
  rintro rfl
  exact absurd h (by decide)

/-- Stripping whitespace around a quoted entry (no trailing flank). -/
theorem stripWs_quoted' (a f : List Char)
    (ha : ∀ c ∈ a, isSpaceC c = true) :
    stripWs (a ++ quoteE f) = quoteE f := by
  have h := stripWs_quoted a [] f ha (by simp)
  rwa [List.append_nil] at h

/-- Parsing a whitespace-framed formatted entry list recovers the list. -/
theorem parseEntries_formatted : ∀ (L : List (List Char)), L ≠ [] →
    (∀ f ∈ L, (',' ∉ f) ∧
      f.head?.all (fun c => !isQuoteC c) = true ∧
      f.getLast?.all (fun c => !isQuoteC c) = true) →
    ∀ ws0 wsE : List Char,
      (∀ c ∈ ws0, isSpaceC c = true) → (∀ c ∈ wsE, isSpaceC c = true) →
      parseEntries (ws0 ++ formattedFiles L ++ wsE) = L := by
  intro L
  induction L with
  | nil => intro h; exact absurd rfl h
  | cons f L' ih =>
    intro _ hf ws0 wsE hws0 hwsE
    obtain ⟨hcomma, hhead, hlast⟩ := hf f (by simp)
    have hAcomma : ',' ∉ ws0 ++ quoteE f := by
      intro hc
      rcases List.mem_append.mp hc with hc | hc
      · exact isSpaceC_ne_comma (hws0 _ hc) rfl
      · rcases mem_quoteE hc with h' | h'
        · exact absurd h' (by decide)
        · exact hcomma h'
    cases L' with
    | nil =>
      rw [formattedFiles_single]
      refine parseEntries_single _ f ?_
        (stripWs_quoted ws0 wsE f hws0 hwsE)
        (stripQuotes_quoteE f hhead hlast)
      intro hc
      rcases List.mem_append.mp hc with hc | hc
      · exact hAcomma hc
      · exact isSpaceC_ne_comma (hwsE _ hc) rfl
    | cons g L'' =>
      rw [formattedFiles_cons₂]
      have hre : ws0 ++ (quoteE f ++ sepC ++ formattedFiles (g :: L'')) ++ wsE
          = (ws0 ++ quoteE f) ++ ',' ::
            (nl12 ++ formattedFiles (g :: L'') ++ wsE) := by
        rw [show sepC = ',' :: nl12 from rfl]
        simp [List.append_assoc, List.cons_append]
      rw [hre,
        parseEntries_cons _ _ f hAcomma (stripWs_quoted' ws0 f hws0)
          (stripQuotes_quoteE f hhead hlast),
        ih (by simp) (fun x hx => hf x (by simp [hx])) nl12 wsE
          nl12_all_space hwsE]

/-- Parse — exactly the way the patcher itself parses a document — the
array literal the patcher produces for the target set `F`. -/
def parseProduced (F : List (List Char)) : List (List Char) :=
  match searchArr (newArrayStr (canonList F)) with
  | some (_, body, _) => parseEntries (body.dropWhile isSpaceC)
  | none => []

/-- Counterexample to C4 as stated: for the file-entry set
`{"a,b.html"}` (a legal file name containing a comma) the produced
literal `const animationFiles = [\n            "a,b.html"\n        ];`
parses back to the two entries `a` and `b.html`, not to the original
set. -/
theorem claim_C4_counterexample :
    parseProduced ["a,b.html".data] = ["a".data, "b.html".data] ∧
      (parseProduced ["a,b.html".data]).toFinset ≠
        (["a,b.html".data] : List (List Char)).toFinset := by
  exact ⟨by decide, by decide⟩

/-- C4 (amended): the round trip holds for every target set whose entries
contain no comma and no `]`, and neither start nor end with a quote
character: parsing the produced literal yields exactly the canonical
entry list, whose set is the target set. -/
theorem claim_C4 (F : List (List Char))
    (hf : ∀ f ∈ F, (',' ∉ f) ∧ (']' ∉ f) ∧
      f.head?.all (fun c => !isQuoteC c) = true ∧
      f.getLast?.all (fun c => !isQuoteC c) = true) :
    parseProduced F = canonList F ∧
      (parseProduced F).toFinset = F.toFinset := by
  have hfL : ∀ f ∈ canonList F, (',' ∉ f) ∧ (']' ∉ f) ∧
      f.head?.all (fun c => !isQuoteC c) = true ∧
      f.getLast?.all (fun c => !isQuoteC c) = true :=
    fun f hfmem => hf f ((canonList_mem F f).mp hfmem)
  have hparsed : parseProduced F = canonList F := by
    unfold parseProduced
    rw [searchArr_newArrayStr (canonList F) (fun f hfm => (hfL f hfm).2.1)]
    rcases hL : canonList F with _ | ⟨x, L''⟩
    · rw [hL] at *
      decide
    · rw [hL] at hfL
      have hform : ∃ R, formattedFiles (x :: L'') = quoteE x ++ R := by
        cases L'' with
        | nil => exact ⟨[], by rw [formattedFiles_single]; simp⟩
        | cons g L₃ =>
          exact ⟨sepC ++ formattedFiles (g :: L₃), by
            rw [formattedFiles_cons₂]; simp⟩
      obtain ⟨R, hR⟩ := hform
      have hstep : (nl12 ++ formattedFiles (x :: L'') ++ nl8).dropWhile
          isSpaceC = formattedFiles (x :: L'') ++ nl8 := by
        rw [hR]
        have hsh : nl12 ++ (quoteE x ++ R) ++ nl8
            = nl12 ++ ('"' :: (x ++ ['"'] ++ R ++ nl8)) := by
          simp [quoteE]
        rw [hsh, dropWhile_all_append nl12 _ nl12_all_space,
          List.dropWhile_cons, show isSpaceC '"' = false from rfl]
        simp [quoteE]
      show parseEntries ((nl12 ++ formattedFiles (x :: L'') ++ nl8).dropWhile
        isSpaceC) = x :: L''
      rw [hstep]
      have h := parseEntries_formatted (x :: L'') (by simp)
        (fun f hfm => ⟨(hfL f hfm).1, (hfL f hfm).2.2.1, (hfL f hfm).2.2.2⟩)
        [] nl8 (by simp) nl8_all_space
      rwa [List.nil_append] at h
  exact ⟨hparsed, by rw [hparsed, canonList_toFinset]⟩

/-- Witness for C4 (amended) at the sample target set. -/
theorem claim_C4_witness :
    parseProduced sampleDisk = canonList sampleDisk ∧
      (parseProduced sampleDisk).toFinset = sampleDisk.toFinset := by
  refine claim_C4 sampleDisk ?_
  intro f hfm
  rcases (by simpa [sampleDisk] using hfm :
      f = "Anim/spin.html".data ∨ f = "Anim/fade.html".data) with rfl | rfl
  · exact ⟨by decide, by decide, by decide, by decide⟩
  · exact ⟨by decide, by decide, by decide, by decide⟩

/-! ## Claim C2: idempotence machinery -/

theorem tryMatch_none_of_no_header {l : List Char} (h : ¬ headerC <+: l) :
    tryMatch l = none := by
  unfold tryMatch
  rw [if_neg h]

theorem dropWhile_head_false {p : Char → Bool} :
    ∀ {l : List Char} {x : Char} {xs : List Char},
      l.dropWhile p = x :: xs → p x = false := by
  intro l
  induction l with
  | nil => intro x xs h; cases h
  | cons c cs ih =>
    intro x xs h
    rw [List.dropWhile_cons] at h
    by_cases hc : p c
    · rw [if_pos hc] at h
      exact ih h
    · rw [if_neg hc] at h
      injection h with h1 _
      subst h1
      exact Bool.eq_false_iff.mpr hc

/-- If the scan after the header stops at `];`, the match fails only if it
succeeded — used contrapositively. -/
theorem tryMatch_ne_none_of_semicolon {l t : List Char}
    (hpre : headerC <+: l)
    (hdw : (l.drop headerC.length).dropWhile notRB = ']' :: ';' :: t) :
    tryMatch l ≠ none := by
  unfold tryMatch
  rw [if_pos hpre, hdw]
  simp

/-- If the scan stops at a `]` not followed by `;`, the match fails. -/
theorem tryMatch_none_of_follower {l r : List Char}
    (hpre : headerC <+: l)
    (hdw : (l.drop headerC.length).dropWhile notRB = ']' :: r)
    (hr : ∀ t', r ≠ ';' :: t') :
    tryMatch l = none := by
  unfold tryMatch
  rw [if_pos hpre, hdw]
  split
  case h_1 post heq =>
    injection heq with _ h2
    exact absurd h2 (hr post)
  case h_2 => rfl

/-- Whether the header occurs at the start of `P' ++ header ++ X` does not
depend on `X` (the 24-character window never reaches `X`). -/
theorem headerC_prefix_indep {P' A B : List Char}
    (h : headerC <+: P' ++ (headerC ++ A)) :
    headerC <+: P' ++ (headerC ++ B) := by
  rw [List.prefix_iff_eq_take] at h ⊢
  have key : ∀ X : List Char, (P' ++ (headerC ++ X)).take headerC.length
      = P'.take headerC.length ++
        headerC.take (headerC.length - P'.length) := by
    intro X
    rw [List.take_append_eq_append_take, List.take_append_eq_append_take]
    have hz : headerC.length - P'.length - headerC.length = 0 := by omega
    rw [hz]
    simp
  rw [key A] at h
  rw [key B]
  exact h

/-- Failure transfer: if the anchored match fails at a position strictly
before two texts that agree up to their embedded literal — both of the
shape `header ++ ]-free body ++ "];" ++ tail`, the second body not
starting with `;` — then failing on the first implies failing on the
second.  This is what keeps `re.search`'s first hit stable across the
rewrite. -/
theorem tryMatch_none_transfer (P' bX bY tX tY : List Char)
    (hbX : ∀ c ∈ bX, c ≠ ']')
    (hYhead : ∀ c, bY.head? = some c → c ≠ ';')
    (hfail : tryMatch (P' ++ (headerC ++ (bX ++ ']' :: ';' :: tX))) = none) :
    tryMatch (P' ++ (headerC ++ (bY ++ ']' :: ';' :: tY))) = none := by
  by_cases hpre₂ : headerC <+: P' ++ (headerC ++ (bY ++ ']' :: ';' :: tY))
  case neg => exact tryMatch_none_of_no_header hpre₂
  case pos =>
  have hpre₁ : headerC <+: P' ++ (headerC ++ (bX ++ ']' :: ';' :: tX)) :=
    headerC_prefix_indep hpre₂
  have hlenP : headerC.length ≤ (P' ++ headerC).length := by simp
  have hdropD : ∀ X : List Char,
      (P' ++ (headerC ++ X)).drop headerC.length
      = (P' ++ headerC).drop headerC.length ++ X := by
    intro X
    rw [← List.append_assoc, List.drop_append_of_le_length hlenP]
  by_cases hKr : ']' ∈ (P' ++ headerC).drop headerC.length
  case neg =>
    exfalso
    have hb' : ∀ c ∈ (P' ++ headerC).drop headerC.length ++ bX, c ≠ ']' := by
      intro c hc
      rcases List.mem_append.mp hc with hc | hc
      · rintro rfl
        exact hKr hc
      · exact hbX c hc
    have hdw : ((P' ++ (headerC ++ (bX ++ ']' :: ';' :: tX))).drop
        headerC.length).dropWhile notRB = ']' :: ';' :: tX := by
      rw [hdropD]
      have hsh : (P' ++ headerC).drop headerC.length ++
          (bX ++ ']' :: ';' :: tX)
          = ((P' ++ headerC).drop headerC.length ++ bX) ++
            ']' :: (';' :: tX) := by simp
      rw [hsh, dropWhile_notRB _ _ hb']
    exact tryMatch_ne_none_of_semicolon hpre₁ hdw hfail
  case pos =>
    rcases hdK : ((P' ++ headerC).drop headerC.length).dropWhile notRB
      with _ | ⟨k, K₁⟩
    · exfalso
      have hall := List.dropWhile_eq_nil_iff.mp hdK
      exact absurd (hall ']' hKr) (by simp [notRB])
    · have hk : k = ']' := by
        have h := dropWhile_head_false hdK
        simpa [notRB] using h
      subst hk
      have hKsplit : (P' ++ headerC).drop headerC.length
          = ((P' ++ headerC).drop headerC.length).takeWhile notRB
            ++ ']' :: K₁ := by
        conv_lhs => rw [← List.takeWhile_append_dropWhile notRB
          ((P' ++ headerC).drop headerC.length)]
        rw [hdK]
      have hK₀ : ∀ c ∈ ((P' ++ headerC).drop headerC.length).takeWhile notRB,
          c ≠ ']' :=
        fun c hc => notRB_true_iff.mp (List.mem_takeWhile_imp hc)
      have hdwX : ∀ X : List Char,
          ((P' ++ (headerC ++ X)).drop headerC.length).dropWhile notRB
          = ']' :: (K₁ ++ X) := by
        intro X
        rw [hdropD]
        conv_lhs => rw [hKsplit]
        have hsh : (((P' ++ headerC).drop headerC.length).takeWhile notRB
            ++ ']' :: K₁) ++ X
            = ((P' ++ headerC).drop headerC.length).takeWhile notRB
              ++ ']' :: (K₁ ++ X) := by simp
        rw [hsh, dropWhile_notRB _ _ hK₀]
      have hF₁ : ∀ t', K₁ ++ (bX ++ ']' :: ';' :: tX) ≠ ';' :: t' := by
        intro t' heq
        have hdw' : ((P' ++ (headerC ++ (bX ++ ']' :: ';' :: tX))).drop
            headerC.length).dropWhile notRB = ']' :: ';' :: t' := by
          rw [hdwX (bX ++ ']' :: ';' :: tX), heq]
        exact tryMatch_ne_none_of_semicolon hpre₁ hdw' hfail
      refine tryMatch_none_of_follower hpre₂
        (hdwX (bY ++ ']' :: ';' :: tY)) ?_
      intro t' heq
      cases hK₁ : K₁ with
      | nil =>
        rw [hK₁] at heq
        cases hbYc : bY with
        | nil =>
          rw [hbYc] at heq
          simp at heq
        | cons y ys =>
          rw [hbYc] at heq
          simp only [List.nil_append, List.cons_append] at heq
          injection heq with h1 _
          exact hYhead y (by rw [hbYc]; rfl) h1
      | cons c K₁' =>
        rw [hK₁] at heq
        simp only [List.cons_append] at heq
        injection heq with h1 _
        subst h1
        exact hF₁ (K₁' ++ (bX ++ ']' :: ';' :: tX)) (by rw [hK₁]; simp)

/-- No group-0 occurrence can start before the first match. -/
theorem searchArr_no_group0_prefix {content pre body post : List Char}
    (hs : searchArr content = some (pre, body, post)) :
    ∀ i < pre.length, ¬ (headerC ++ body ++ [']', ';']) <+: content.drop i := by
  obtain ⟨_, hbody, hfail⟩ := searchArr_some hs
  intro i hi hp
  have htm := tryMatch_of_group0_prefix _ hbody hp
  rw [hfail i hi] at htm
  cases htm

/-- The produced literal's body contains no `]` when the entries do not. -/
theorem newBody_no_rbracket (L : List (List Char))
    (h : ∀ f ∈ L, ']' ∉ f) :
    ∀ c ∈ nl12 ++ formattedFiles L ++ nl8, c ≠ ']' := by
  intro c hc
  rcases List.mem_append.mp hc with hc | hc
  · rcases List.mem_append.mp hc with hc | hc
    · exact nl12_no_rbracket c hc
    · exact formattedFiles_no_rbracket L h c hc
  · exact nl8_no_rbracket c hc

/-- Inversion: a rewrite happened exactly from a successful search with
differing sets, and the written content is the replace-all result. -/
theorem update_updated_inv {disk : List (List Char)} {content c : List Char}
    (h : update_library_file disk content = .updated c) :
    ∃ pre body post, searchArr content = some (pre, body, post) ∧
      disk.toFinset ≠ (parseEntries (body.dropWhile isSpaceC)).toFinset ∧
      c = replaceAll (headerC ++ body ++ [']', ';'])
        (newArrayStr (canonList disk)) content := by
  unfold update_library_file at h
  cases hs : searchArr content with
  | none => rw [hs] at h; cases h
  | some t =>
    obtain ⟨pre, body, post⟩ := t
    rw [hs] at h
    dsimp only at h
    by_cases hset : disk.toFinset =
        (parseEntries (body.dropWhile isSpaceC)).toFinset
    · rw [if_pos hset] at h
      cases h
    · rw [if_neg hset] at h
      injection h with h'
      exact ⟨pre, body, post, rfl, hset, h'.symm⟩

/-- A second document with a different single literal. -/
def docB : List Char := "const animationFiles = [\"Anim/b.html\"];".data

/-- A document holding two distinct literals (the regex matches the first). -/
def docC2 : List Char := docA ++ docB

/-- An equivalent-set document: same entries as `sampleDisk`, with
different order and mixed quoting. -/
def docEq : List Char :=
  "<p>const animationFiles = ['Anim/fade.html', \"Anim/spin.html\"];</p>".data

/-- Counterexample to C2 as stated: for the target set
`{"Anim/a]b.html"}` (a legal file name containing `]`), the first patch
rewrites the first literal of `docC2`; in the patched text the inserted
literal no longer matches the regex (its body is cut at the `]` inside
the entry), so the second run matches the *second* literal and rewrites
again — the second application modifies the file. -/
theorem claim_C2_counterexample :
    patchedContent ["Anim/a]b.html".data]
        (patchedContent ["Anim/a]b.html".data] docC2) ≠
      patchedContent ["Anim/a]b.html".data] docC2 := by decide

/-- C2 (amended): (1) unconditionally, a document whose parsed entry set
(any order, any quoting) already equals the target set is left untouched —
`upToDate` is the no-write branch of lines 55−57; (2) the patcher is
idempotent on file content provided no target entry contains `]`
(the counterexample character): the second run either finds the sets
equal, or replaces the inserted literal by itself. -/
theorem claim_C2 (disk : List (List Char)) (content : List Char) :
    (∀ pre body post, searchArr content = some (pre, body, post) →
      disk.toFinset = (parseEntries (body.dropWhile isSpaceC)).toFinset →
      update_library_file disk content = .upToDate ∧
        patchedContent disk content = content) ∧
    ((∀ f ∈ disk, ']' ∉ f) →
      patchedContent disk (patchedContent disk content) =
        patchedContent disk content) := by
  constructor
  · intro pre body post hs heq
    refine ⟨update_of_sets_eq hs heq, ?_⟩
    unfold patchedContent
    rw [update_of_sets_eq hs heq]
  · intro hdisk
    cases hu : update_library_file disk content with
    | patternNotFound =>
      have hpc : patchedContent disk content = content := by
        unfold patchedContent
        rw [hu]
      rw [hpc, hpc]
    | upToDate =>
      have hpc : patchedContent disk content = content := by
        unfold patchedContent
        rw [hu]
      rw [hpc, hpc]
    | updated c2 =>
      have hpc : patchedContent disk content = c2 := by
        unfold patchedContent
        rw [hu]
      rw [hpc]
      obtain ⟨pre, body, post, hs, _, hc2⟩ := update_updated_inv hu
      subst hc2
      obtain ⟨hdec, hbody, hfailtm⟩ := searchArr_some hs
      have hg0ne : (headerC ++ body ++ [']', ';']) ≠ [] := by simp [headerC]
      have hcontent : content
          = pre ++ (headerC ++ body ++ [']', ';']) ++ post := by
        rw [hdec]
        simp
      have hfail : ∀ i < pre.length,
          ¬ (headerC ++ body ++ [']', ';']) <+:
            (pre ++ (headerC ++ body ++ [']', ';']) ++ post).drop i := by
        intro i hi
        rw [← hcontent]
        exact searchArr_no_group0_prefix hs i hi
      have hA : replaceAll (headerC ++ body ++ [']', ';'])
          (newArrayStr (canonList disk)) content
          = pre ++ newArrayStr (canonList disk) ++
            replaceAll (headerC ++ body ++ [']', ';'])
              (newArrayStr (canonList disk)) post := by
        conv_lhs => rw [hcontent]
        exact replaceAll_structured _ _ _ _ hg0ne hfail
      rw [hA]
      have hLr : ∀ f ∈ canonList disk, ']' ∉ f :=
        fun f hf => hdisk f ((canonList_mem disk f).mp hf)
      have hnbr : ∀ c ∈ nl12 ++ formattedFiles (canonList disk) ++ nl8,
          c ≠ ']' := newBody_no_rbracket _ hLr
      have hshape : pre ++ newArrayStr (canonList disk) ++
          replaceAll (headerC ++ body ++ [']', ';'])
            (newArrayStr (canonList disk)) post
          = pre ++ headerC ++
            (nl12 ++ formattedFiles (canonList disk) ++ nl8) ++
            ']' :: ';' ::
              replaceAll (headerC ++ body ++ [']', ';'])
                (newArrayStr (canonList disk)) post := by
        simp [newArrayStr]
      have hsearch₂ : searchArr (pre ++ newArrayStr (canonList disk) ++
          replaceAll (headerC ++ body ++ [']', ';'])
            (newArrayStr (canonList disk)) post)
          = some (pre, nl12 ++ formattedFiles (canonList disk) ++ nl8,
              replaceAll (headerC ++ body ++ [']', ';'])
                (newArrayStr (canonList disk)) post) := by
        refine searchArr_of _ hshape hnbr ?_
        intro i hi
        have hi' : i ≤ pre.length := Nat.le_of_lt hi
        have hd2 : (pre ++ newArrayStr (canonList disk) ++
            replaceAll (headerC ++ body ++ [']', ';'])
              (newArrayStr (canonList disk)) post).drop i
            = pre.drop i ++ (headerC ++
              ((nl12 ++ formattedFiles (canonList disk) ++ nl8) ++
                ']' :: ';' ::
                  replaceAll (headerC ++ body ++ [']', ';'])
                    (newArrayStr (canonList disk)) post)) := by
          rw [List.append_assoc,
            List.drop_append_of_le_length hi']
          simp [newArrayStr]
        have hd1 : content.drop i
            = pre.drop i ++ (headerC ++ (body ++ ']' :: ';' :: post)) := by
          rw [hcontent, List.append_assoc,
            List.drop_append_of_le_length hi']
          simp
        rw [hd2]
        refine tryMatch_none_transfer (pre.drop i) body
          (nl12 ++ formattedFiles (canonList disk) ++ nl8) post
          (replaceAll (headerC ++ body ++ [']', ';'])
            (newArrayStr (canonList disk)) post) hbody ?_ ?_
        · intro c hc
          have : (nl12 ++ formattedFiles (canonList disk) ++ nl8).head?
              = some '\n' := rfl
          rw [this] at hc
          injection hc with h1
          subst h1
          decide
        · rw [← hd1]
          exact hfailtm i hi
      by_cases hset₂ : disk.toFinset =
          (parseEntries ((nl12 ++ formattedFiles (canonList disk) ++
            nl8).dropWhile isSpaceC)).toFinset
      · unfold patchedContent
        rw [update_of_sets_eq hsearch₂ hset₂]
      · unfold patchedContent
        rw [update_of_sets_ne hsearch₂ hset₂]
        have hng : headerC ++
            (nl12 ++ formattedFiles (canonList disk) ++ nl8) ++ [']', ';']
            = newArrayStr (canonList disk) := by
          simp [newArrayStr]
        rw [hng, replaceAll_self]

/-- Witness for C2: the first conjunct on a document whose array already
holds the target set (different order, mixed quoting) — a no-op; the
second on the sample rewrite — patching twice equals patching once. -/
theorem claim_C2_witness :
    (update_library_file sampleDisk docEq = .upToDate ∧
      patchedContent sampleDisk docEq = docEq) ∧
    patchedContent sampleDisk (patchedContent sampleDisk sampleDoc) =
      patchedContent sampleDisk sampleDoc :=
  ⟨(claim_C2 sampleDisk docEq).1 "<p>".data
      "'Anim/fade.html', \"Anim/spin.html\"".data "</p>".data rfl (by decide),
    (claim_C2 sampleDisk sampleDoc).2 (by decide)⟩

/-! ## Claim C8 -/

theorem map_fst_error
    {x : Except (List GitCmd × SyncOutcome) (List GitCmd × ExecResult)}
    {e : List GitCmd × SyncOutcome}
    (h : (x.map (fun y => y.1)) = .error e) : x = .error e := by
  cases x with
  | error e' =>
    simp only [Except.map] at h
    injection h with h'
    rw [h']
  | ok a => simp [Except.map] at h

theorem map_fst_ok
    {x : Except (List GitCmd × SyncOutcome) (List GitCmd × ExecResult)}
    {t : List GitCmd}
    (h : (x.map (fun y => y.1)) = .ok t) : ∃ r, x = .ok (t, r) := by
  cases x with
  | error e' => simp [Except.map] at h
  | ok a =>
    simp only [Except.map] at h
    injection h with h'
    exact ⟨a.2, by rw [← h']⟩

/-- What a failed `step` tells us. -/
theorem step_error_inv {run : GitCmd → Option ExecResult}
    {trace : List GitCmd} {c : GitCmd} {x : List GitCmd × SyncOutcome}
    (h : step run trace c = .error x) :
    x.1 = trace ++ [c] ∧ x.1.getLast? = some c ∧
      ((run c = none ∧ x.2 = .toolNotFound c) ∨
        (∃ r, run c = some r ∧ r.exitCode ≠ 0 ∧
          x.2 = .cmdFailed c
            (if capturedOutput c then some r.stderr else none))) := by
  unfold step at h
  cases hr : run c with
  | none =>
    rw [hr] at h
    injection h with h'
    subst h'
    exact ⟨rfl, by simp, Or.inl ⟨rfl, rfl⟩⟩
  | some r =>
    rw [hr] at h
    dsimp only at h
    by_cases hc : r.exitCode = 0
    · rw [if_pos hc] at h
      cases h
    · rw [if_neg hc] at h
      injection h with h'
      subst h'
      exact ⟨rfl, by simp, Or.inr ⟨r, rfl, hc, rfl⟩⟩

/-- What a successful `step` tells us. -/
theorem step_ok_inv {run : GitCmd → Option ExecResult}
    {trace : List GitCmd} {c : GitCmd} {y : List GitCmd × ExecResult}
    (h : step run trace c = .ok y) :
    y.1 = trace ++ [c] ∧ run c = some y.2 ∧ y.2.exitCode = 0 := by
  unfold step at h
  cases hr : run c with
  | none => rw [hr] at h; cases h
  | some r =>
    rw [hr] at h
    dsimp only at h
    by_cases hc : r.exitCode = 0
    · rw [if_pos hc] at h
      injection h with h'
      subst h'
      exact ⟨rfl, rfl, hc⟩
    · rw [if_neg hc] at h
      cases h

/-- Evidence that a run aborted on command `c`: either the tool was absent
(`FileNotFoundError` handler) or `c` exited non-zero
(`CalledProcessError` handler, with its stderr surfaced exactly when that
invocation captured output); in both cases `c` is the last command
executed — nothing after it ran. -/
def AbortEvidence (run : GitCmd → Option ExecResult)
    (t : List GitCmd) (o : SyncOutcome) : Prop :=
  (∃ c, o = .toolNotFound c ∧ run c = none ∧ t.getLast? = some c) ∨
  (∃ c r, o = .cmdFailed c
      (if capturedOutput c then some r.stderr else none) ∧
    run c = some r ∧ r.exitCode ≠ 0 ∧ t.getLast? = some c)

theorem step_error_abort {run : GitCmd → Option ExecResult}
    {trace : List GitCmd} {c : GitCmd} {x : List GitCmd × SyncOutcome}
    (h : step run trace c = .error x) : AbortEvidence run x.1 x.2 := by
  obtain ⟨_, hlast, hd⟩ := step_error_inv h
  rcases hd with ⟨hrun, ho⟩ | ⟨r, hrun, hc, ho⟩
  · exact Or.inl ⟨c, ho, hrun, hlast⟩
  · exact Or.inr ⟨c, r, ho, hrun, hc, hlast⟩

theorem syncPhase_error_inv {run : GitCmd → Option ExecResult}
    {t : List GitCmd} {o : SyncOutcome}
    (h : syncPhase run = .error (t, o)) : AbortEvidence run t o := by
  unfold syncPhase at h
  cases h1 : step run [] .status with
  | error e1 =>
    rw [h1] at h
    dsimp only at h
    injection h with h'
    have ha := step_error_abort h1
    rw [h'] at ha
    exact ha
  | ok y =>
    obtain ⟨t1, r1⟩ := y
    rw [h1] at h
    dsimp only at h
    by_cases hl : (!(stripWs r1.stdout).isEmpty) = true
    · rw [if_pos hl] at h
      cases h2 : (step run t1 .stash).map (fun x => x.1) with
      | error e2 =>
        rw [h2] at h
        dsimp only at h
        injection h with h'
        have ha := step_error_abort (map_fst_error h2)
        rw [h'] at ha
        exact ha
      | ok t2 =>
        rw [h2] at h
        dsimp only at h
        cases h4 : (step run t2 .pull).map (fun x => x.1) with
        | error e4 =>
          rw [h4] at h
          dsimp only at h
          injection h with h'
          have ha := step_error_abort (map_fst_error h4)
          rw [h'] at ha
          exact ha
        | ok t3 =>
          rw [h4] at h
          dsimp only at h
          rw [if_pos hl] at h
          exact step_error_abort (map_fst_error h)
    · rw [if_neg hl] at h
      dsimp only at h
      cases h4 : (step run t1 .pull).map (fun x => x.1) with
      | error e4 =>
        rw [h4] at h
        dsimp only at h
        injection h with h'
        have ha := step_error_abort (map_fst_error h4)
        rw [h'] at ha
        exact ha
      | ok t3 =>
        rw [h4] at h
        dsimp only at h
        rw [if_neg hl] at h
        cases h

theorem commitPhase_error_inv {run : GitCmd → Option ExecResult}
    {t4 t : List GitCmd} {o : SyncOutcome}
    (h : commitPhase run t4 = .error (t, o)) : AbortEvidence run t o := by
  unfold commitPhase at h
  cases h1 : step run t4 .status with
  | error e1 =>
    rw [h1] at h
    dsimp only at h
    injection h with h'
    have ha := step_error_abort h1
    rw [h'] at ha
    exact ha
  | ok y =>
    obtain ⟨t5, r5⟩ := y
    rw [h1] at h
    dsimp only at h
    by_cases he : (stripWs r5.stdout).isEmpty = true
    · rw [if_pos he] at h
      cases h
    · rw [if_neg he] at h
      cases h2 : (step run t5 .add).map (fun x => x.1) with
      | error e2 =>
        rw [h2] at h
        dsimp only at h
        injection h with h'
        have ha := step_error_abort (map_fst_error h2)
        rw [h'] at ha
        exact ha
      | ok t6 =>
        rw [h2] at h
        dsimp only at h
        cases h3 : (step run t6
            (.commit (commitMessage
              (splitOnChar '\n' (stripWs r5.stdout))))).map
            (fun x => x.1) with
        | error e3 =>
          rw [h3] at h
          dsimp only at h
          injection h with h'
          have ha := step_error_abort (map_fst_error h3)
          rw [h'] at ha
          exact ha
        | ok t7 =>
          rw [h3] at h
          dsimp only at h
          cases h5 : (step run t7 .push).map (fun x => x.1) with
          | error e5 =>
            rw [h5] at h
            dsimp only at h
            injection h with h'
            have ha := step_error_abort (map_fst_error h5)
            rw [h'] at ha
            exact ha
          | ok t8 =>
            rw [h5] at h
            dsimp only at h
            cases h

theorem commitPhase_ok_inv {run : GitCmd → Option ExecResult}
    {t4 t : List GitCmd} {o : SyncOutcome}
    (h : commitPhase run t4 = .ok (t, o)) :
    o = .noChanges ∨ o = .completed := by
  unfold commitPhase at h
  cases h1 : step run t4 .status with
  | error e1 =>
    rw [h1] at h
    dsimp only at h
    cases h
  | ok y =>
    obtain ⟨t5, r5⟩ := y
    rw [h1] at h
    dsimp only at h
    by_cases he : (stripWs r5.stdout).isEmpty = true
    · rw [if_pos he] at h
      injection h with h'
      exact Or.inl (congrArg Prod.snd h').symm
    · rw [if_neg he] at h
      cases h2 : (step run t5 .add).map (fun x => x.1) with
      | error e2 => rw [h2] at h; dsimp only at h; cases h
      | ok t6 =>
        rw [h2] at h
        dsimp only at h
        cases h3 : (step run t6
            (.commit (commitMessage
              (splitOnChar '\n' (stripWs r5.stdout))))).map
            (fun x => x.1) with
        | error e3 => rw [h3] at h; dsimp only at h; cases h
        | ok t7 =>
          rw [h3] at h
          dsimp only at h
          cases h5 : (step run t7 .push).map (fun x => x.1) with
          | error e5 => rw [h5] at h; dsimp only at h; cases h
          | ok t8 =>
            rw [h5] at h
            dsimp only at h
            injection h with h'
            exact Or.inr (congrArg Prod.snd h').symm

theorem step_eq_ok {run : GitCmd → Option ExecResult} {t : List GitCmd}
    {c : GitCmd} {r : ExecResult} (h : run c = some r)
    (h0 : r.exitCode = 0) : step run t c = .ok (t ++ [c], r) := by
  unfold step
  rw [h]
  dsimp only
  rw [if_pos h0]

theorem step_eq_fail {run : GitCmd → Option ExecResult} {t : List GitCmd}
    {c : GitCmd} {r : ExecResult} (h : run c = some r)
    (h0 : r.exitCode ≠ 0) : step run t c = .error (t ++ [c],
      .cmdFailed c (if capturedOutput c then some r.stderr else none)) := by
  unfold step
  rw [h]
  dsimp only
  rw [if_neg h0]

theorem manageE_error_abort {run : GitCmd → Option ExecResult}
    {t : List GitCmd} {o : SyncOutcome}
    (h : manageE run = .error (t, o)) : AbortEvidence run t o := by
  unfold manageE at h
  cases hs : syncPhase run with
  | error e =>
    rw [hs] at h
    dsimp only at h
    injection h with h'
    rw [h'] at hs
    exact syncPhase_error_inv hs
  | ok t4 =>
    rw [hs] at h
    dsimp only at h
    exact commitPhase_error_inv h

theorem manageE_ok_outcome {run : GitCmd → Option ExecResult}
    {t : List GitCmd} {o : SyncOutcome}
    (h : manageE run = .ok (t, o)) : o = .noChanges ∨ o = .completed := by
  unfold manageE at h
  cases hs : syncPhase run with
  | error e =>
    rw [hs] at h
    dsimp only at h
    cases h
  | ok t4 =>
    rw [hs] at h
    dsimp only at h
    exact commitPhase_ok_inv h

/-- C8: (1) a stash failure on a dirty tree ends the run right there: the
trace is exactly `[status, stash]` — the pull (and everything after) never
runs — and the outcome surfaces the stash's captured stderr; (2) every
run ends either normally (`noChanges`/`completed`) or with
`AbortEvidence`: the failing command is the last one executed (all
remaining steps aborted), the tool was missing or the command exited
non-zero, and its stderr is surfaced exactly when that invocation
captured output — the model returns this as a value, mirroring the
`except` handlers that swallow the exception; (3) the synchronizer never
writes the library file: `main`'s final content does not depend on the
git oracle at all, so nothing the patcher wrote is rolled back by a git
failure. -/
theorem claim_C8 (run : GitCmd → Option ExecResult) :
    (∀ r0 r1 : ExecResult, run .status = some r0 → r0.exitCode = 0 →
      stripWs r0.stdout ≠ [] → run .stash = some r1 → r1.exitCode ≠ 0 →
      manage_git_repository run =
        ([.status, .stash], .cmdFailed .stash (some r1.stderr)) ∧
      GitCmd.pull ∉ (manage_git_repository run).1) ∧
    (∀ t o, manage_git_repository run = (t, o) →
      o = .noChanges ∨ o = .completed ∨ AbortEvidence run t o) ∧
    (∀ (isdir : Bool) (listing : List (List Char)) (sep : Char)
        (content : List Char) (run' : GitCmd → Option ExecResult),
      (mainModel isdir listing sep content run).finalContent =
        (mainModel isdir listing sep content run').finalContent) := by
  refine ⟨?_, ?_, ?_⟩
  · intro r0 r1 hst h0 hdirty hstash h1nz
    have hs1 : step run ([] : List GitCmd) .status = .ok ([.status], r0) :=
      step_eq_ok hst h0
    have hs2 : step run [GitCmd.status] .stash =
        .error ([.status, .stash], .cmdFailed .stash (some r1.stderr)) := by
      have h := @step_eq_fail run [GitCmd.status] .stash r1 hstash h1nz
      simpa using h
    have hempty : (stripWs r0.stdout).isEmpty = false := by
      cases hn : stripWs r0.stdout with
      | nil => exact absurd hn hdirty
      | cons a l => rfl
    have hcond : (!(stripWs r0.stdout).isEmpty) = true := by
      rw [hempty]
      rfl
    have hsync : syncPhase run =
        .error ([.status, .stash], .cmdFailed .stash (some r1.stderr)) := by
      unfold syncPhase
      rw [hs1]
      dsimp only
      rw [if_pos hcond, hs2]
      rfl
    have hmanage : manage_git_repository run =
        ([.status, .stash], .cmdFailed .stash (some r1.stderr)) := by
      unfold manage_git_repository manageE
      rw [hsync]
    refine ⟨hmanage, ?_⟩
    rw [hmanage]
    show GitCmd.pull ∉ [GitCmd.status, GitCmd.stash]
    decide
  · intro t o hmo
    unfold manage_git_repository at hmo
    cases hE : manageE run with
    | error e =>
      rw [hE] at hmo
      dsimp only at hmo
      rw [hmo] at hE
      exact Or.inr (Or.inr (manageE_error_abort hE))
    | ok x =>
      rw [hE] at hmo
      dsimp only at hmo
      rw [hmo] at hE
      rcases manageE_ok_outcome hE with h | h
      · exact Or.inl h
      · exact Or.inr (Or.inl h)
  · intro isdir listing sep content run'
    by_cases h : (get_animation_files_from_disk isdir listing sep).isEmpty
    <;> simp [mainModel, h]

/-- The concrete C8 witness oracle: a dirty status, then a failing stash. -/
def sampleRunStashFail : GitCmd → Option ExecResult :=
  fun c => match c with
  | .status => some ⟨0, " M Animation Library.html".data, []⟩
  | .stash => some ⟨1, [], "stash failed".data⟩
  | _ => some ⟨0, [], []⟩

/-- Witness for C8: the stash failure aborts before the pull. -/
theorem claim_C8_witness :
    manage_git_repository sampleRunStashFail =
      ([.status, .stash], .cmdFailed .stash (some "stash failed".data)) :=
  ((claim_C8 sampleRunStashFail).1 ⟨0, " M Animation Library.html".data, []⟩
    ⟨1, [], "stash failed".data⟩ rfl rfl (by decide) rfl (by decide)).1
